import Mathlib

/-!
Shallow embedding of the hash-function distribution tester
(`src/main.cpp` and `src/main_no_histogram.cpp`).

The program hashes every word of a dictionary into 65536 buckets with a
candidate hash function of C++ type `string -> uint16_t`, then computes a
chi-square goodness-of-fit statistic against the uniform distribution, a
p-value from the chi-squared distribution with 65535 degrees of freedom
(via `boost::math::cdf`), and (in the `main.cpp` variant) a 16-segment
text histogram of the bucket counts.

Modelling conventions:
* a word is a `String`, a `uint16_t`-valued hash function is
  `String → Fin 65536`;
* the bucket vector `vector<int> hashes(65536, 0)` is a `List ℕ`
  (counts are non-negative); indexed reads use `List.getD` and writes
  `List.set`, and a separate `Option`-valued accumulator makes the
  in-bounds obligation of `hashes[h]++` explicit;
* `float`/`double` arithmetic on the statistics and the histogram
  normalisation is modelled exactly over `ℚ` (the computations involve
  only ring operations, division and rounding);
* `boost::math::chi_squared c2d(65535)` and its `cdf` are an external
  library: they are modelled from the spec as the chi-squared
  distribution with 65535 degrees of freedom, i.e. the Gamma measure
  with shape 65535/2 and rate 1/2, and its cumulative distribution
  function.
-/

open MeasureTheory Set ProbabilityTheory

/-- Modelled from the spec: the chi-squared distribution with 65535 degrees
of freedom used by `computePValue` (the Boost library object
`boost::math::chi_squared c2d(65535.0)` is external to the repository).
The chi-squared distribution with `k` degrees of freedom is the Gamma
distribution with shape `k/2` and rate `1/2`. -/
noncomputable def chiSquaredDist65535 : Measure ℝ :=
  gammaMeasure (65535 / 2) (1 / 2)

namespace MainCpp

/-- `vector<int> hashes(65536, 0);` — the fresh zero-initialised bucket
array created at the start of each trial in `testHashFunction`. -/
def bucketInit : List ℕ := List.replicate 65536 0

/-- The accumulation loop of `testHashFunction` (`src/main.cpp` lines
207–215): for each word `w`, `uint16_t h = hashFunc(word); hashes[h]++;`. -/
def accumulate (words : List String) (hashFunc : String → Fin 65536) : List ℕ :=
  words.foldl (fun hashes w =>
    hashes.set (hashFunc w).val (hashes.getD (hashFunc w).val 0 + 1)) bucketInit

/-- The accumulation loop again, with every array access bounds-checked:
`hashes[h]++` is performed only if `h < hashes.length`, and the whole
trial aborts with `none` otherwise.  Used to state that the unchecked
indexing of the source is in fact always in bounds. -/
def accumulateChecked (words : List String) (hashFunc : String → Fin 65536) :
    Option (List ℕ) :=
  words.foldlM (fun hashes w =>
    if (hashFunc w).val < hashes.length then
      some (hashes.set (hashFunc w).val (hashes.getD (hashFunc w).val 0 + 1))
    else none) bucketInit

/-- `float expected = static_cast<float>(totalWords) / 65536.0;` where
`totalWords = words.size()` (`src/main.cpp` lines 36–39). -/
def expectedCount (words : List String) : ℚ := (words.length : ℚ) / 65536

/-- `computeChiSquare` (`src/main.cpp` lines 33–52): starting from `0.0`,
for each `count` in `hashes` add `pow(count - expected, 2) / expected`. -/
def computeChiSquare (words : List String) (hashes : List ℕ) : ℚ :=
  hashes.foldl
    (fun (chiSquare : ℚ) (count : ℕ) =>
      chiSquare + ((count : ℚ) - expectedCount words) ^ 2 / expectedCount words)
    0

/-- `computePValue` (`src/main.cpp` lines 55–62): the cumulative
distribution function of the chi-squared distribution with 65535 degrees
of freedom, evaluated at the statistic.  Modelled from the spec, since
`boost::math::cdf` is external to the repository. -/
noncomputable def computePValue (chiSquare : ℝ) : ℝ :=
  cdf chiSquaredDist65535 chiSquare

/-- `const int HISTOGRAM_HEIGHT = 10;` (`src/main.cpp` line 25). -/
def HISTOGRAM_HEIGHT : ℕ := 10

/-- `int maxCount = *max_element(hashes.begin(), hashes.end());`
(`src/main.cpp` line 102).  `List.max?` is `none` only on the empty
array, on which `max_element` would be undefined; the program only ever
passes arrays of length 65536. -/
def maxCount (hashes : List ℕ) : ℕ := hashes.max?.getD 0

/-- `int minCount = *min_element(hashes.begin(), hashes.end());`
(`src/main.cpp` line 105). -/
def minCount (hashes : List ℕ) : ℕ := hashes.min?.getD 0

/-- The slice `[start, end)` of the bucket array examined for segment `i`
of the histogram: `start = i * 4096`, `end = min((i + 1) * 4096,
hashes.size())` (`src/main.cpp` lines 109–118). -/
def segmentSlice (hashes : List ℕ) (i : ℕ) : List ℕ :=
  (hashes.drop (i * 4096)).take (min ((i + 1) * 4096) hashes.length - i * 4096)

/-- `segmentMaxCounts[i]`: the maximum bucket count within segment `i`
(`src/main.cpp` lines 108–121). -/
def segmentMaxCount (hashes : List ℕ) (i : ℕ) : ℕ :=
  (segmentSlice hashes i).max?.getD 0

/-- `normalizedSegments[i] = round(((segmentMaxCounts[i] - minCount) /
static_cast<double>(maxCount - minCount)) * (HISTOGRAM_HEIGHT - 1));`
(`src/main.cpp` lines 125–142).  The subtractions happen on C++ `int`s,
so they are modelled in `ℤ` (cast into `ℚ`), not with truncated `ℕ`
subtraction. -/
def normalizedSegment (hashes : List ℕ) (i : ℕ) : ℤ :=
  round ((((segmentMaxCount hashes i : ℤ) - (minCount hashes : ℤ) : ℤ) : ℚ) /
      (((maxCount hashes : ℤ) - (minCount hashes : ℤ) : ℤ) : ℚ) *
      ((HISTOGRAM_HEIGHT : ℚ) - 1))

/-- The 16 normalised segment heights of `printHistogram`. -/
def normalizedSegments (hashes : List ℕ) : List ℤ :=
  (List.range 16).map (normalizedSegment hashes)

/-- The data printed for one trial by `testHashFunction`
(`src/main.cpp` lines 217–239): the chi-square statistic, the p-value,
and the histogram's segment heights. -/
structure Report where
  chiSquare : ℚ
  pValue : ℝ
  histogram : List ℤ

/-- The mutable state of a `HashFunctionTester` object: its only data
member is the word list `words`, loaded once by the constructor. -/
structure TesterState where
  words : List String

/-- `testHashFunction` (`src/main.cpp` lines 201–240): a fresh
zero-initialised bucket array is accumulated over the word list, the
statistic and p-value are computed, and the report (including the
histogram) is emitted.  The resulting object state is returned
explicitly: no member of the tester is written by the trial. -/
noncomputable def testHashFunction (s : TesterState)
    (hashFunc : String → Fin 65536) : Report × TesterState :=
  let hashes := accumulate s.words hashFunc
  let chiSquare := computeChiSquare s.words hashes
  let pValue := computePValue (chiSquare : ℝ)
  (⟨chiSquare, pValue, normalizedSegments hashes⟩, s)

/-- Running a sequence of registered trials in order, threading the
tester state from each trial into the next (as `runAllTests` does). -/
noncomputable def runTrials (s : TesterState) :
    List (String → Fin 65536) → List Report
  | [] => []
  | hashFunc :: rest =>
      let (report, s') := testHashFunction s hashFunc
      report :: runTrials s' rest

end MainCpp

namespace NoHistogramCpp

/-- `vector<int> hashes(65536, 0);` in `src/main_no_histogram.cpp`
line 112. -/
def bucketInit : List ℕ := List.replicate 65536 0

/-- The accumulation loop of `testHashFunction`
(`src/main_no_histogram.cpp` lines 114–122). -/
def accumulate (words : List String) (hashFunc : String → Fin 65536) : List ℕ :=
  words.foldl (fun hashes w =>
    hashes.set (hashFunc w).val (hashes.getD (hashFunc w).val 0 + 1)) bucketInit

/-- `float expected = static_cast<float>(totalWords) / 65536.0;`
(`src/main_no_histogram.cpp` lines 33–36). -/
def expectedCount (words : List String) : ℚ := (words.length : ℚ) / 65536

/-- `computeChiSquare` (`src/main_no_histogram.cpp` lines 30–49). -/
def computeChiSquare (words : List String) (hashes : List ℕ) : ℚ :=
  hashes.foldl
    (fun (chiSquare : ℚ) (count : ℕ) =>
      chiSquare + ((count : ℚ) - expectedCount words) ^ 2 / expectedCount words)
    0

/-- `computePValue` (`src/main_no_histogram.cpp` lines 52–59); the Boost
chi-squared CDF is modelled from the spec exactly as in `MainCpp`. -/
noncomputable def computePValue (chiSquare : ℝ) : ℝ :=
  cdf chiSquaredDist65535 chiSquare

/-- The data printed for one trial by `testHashFunction`
(`src/main_no_histogram.cpp` lines 124–144): statistic and p-value only,
no histogram. -/
structure Report where
  chiSquare : ℚ
  pValue : ℝ

/-- `testHashFunction` (`src/main_no_histogram.cpp` lines 108–145). -/
noncomputable def testHashFunction (words : List String)
    (hashFunc : String → Fin 65536) : Report :=
  let hashes := accumulate words hashFunc
  let chiSquare := computeChiSquare words hashes
  let pValue := computePValue (chiSquare : ℝ)
  ⟨chiSquare, pValue⟩

end NoHistogramCpp

namespace MainCpp

/-! ### List helper lemmas -/

/-- The chi-square accumulation fold computes its initial value plus the
sum of the per-bucket contributions. -/
lemma computeChiSquare_foldl (words : List String) :
    ∀ (l : List ℕ) (a : ℚ),
      l.foldl (fun (chiSquare : ℚ) (count : ℕ) =>
          chiSquare + ((count : ℚ) - expectedCount words) ^ 2 / expectedCount words) a
        = a + (l.map (fun (count : ℕ) =>
            ((count : ℚ) - expectedCount words) ^ 2 / expectedCount words)).sum
  | [], a => by simp
  | x :: l, a => by
    rw [List.foldl_cons, computeChiSquare_foldl words l _, List.map_cons,
      List.sum_cons]
    ring

/-- Summing `g` over the entries of a list, written as a `Finset.range`
sum over positions accessed with `List.getD`. -/
lemma sum_map_getD {M : Type} [AddCommMonoid M] {β : Type} (g : β → M) (d : β) :
    ∀ (l : List β), (l.map g).sum = ∑ i ∈ Finset.range l.length, g (l.getD i d)
  | [] => by simp
  | x :: l => by
    rw [List.map_cons, List.sum_cons, List.length_cons, Finset.sum_range_succ']
    simp only [List.getD_cons_succ, List.getD_cons_zero]
    rw [← sum_map_getD g d l]
    exact (add_comm _ _)

/-- The sum of a list of naturals as a `Finset.range` sum of its entries. -/
lemma sum_eq_sum_getD (l : List ℕ) :
    l.sum = ∑ i ∈ Finset.range l.length, l.getD i 0 := by
  conv_lhs => rw [← List.map_id l]
  exact sum_map_getD id 0 l

/-- Every entry of the fresh bucket array is `0`. -/
lemma getD_bucketInit (i : ℕ) : bucketInit.getD i 0 = 0 := by
  rw [bucketInit, List.getD_eq_getElem?_getD, List.getElem?_replicate]
  split <;> rfl

/-- The accumulation loop preserves the length of the bucket array. -/
lemma accumulate_loop_length (f : String → Fin 65536) :
    ∀ (ws : List String) (hs : List ℕ),
      (ws.foldl (fun hashes w =>
        hashes.set (f w).val (hashes.getD (f w).val 0 + 1)) hs).length = hs.length
  | [], hs => rfl
  | w :: ws, hs => by
    rw [List.foldl_cons, accumulate_loop_length f ws _, List.length_set]

/-- Entry `i` after the accumulation loop: the previous entry plus the
number of processed words hashing to `i`. -/
lemma accumulate_loop_getD (f : String → Fin 65536) :
    ∀ (ws : List String) (hs : List ℕ), hs.length = 65536 →
      ∀ i : ℕ, i < 65536 →
      (ws.foldl (fun hashes w =>
        hashes.set (f w).val (hashes.getD (f w).val 0 + 1)) hs).getD i 0
        = hs.getD i 0 + ws.countP (fun w => (f w).val == i)
  | [], hs, _, i, _ => by simp
  | w :: ws, hs, hlen, i, hi => by
    rw [List.foldl_cons,
      accumulate_loop_getD f ws _ (by rw [List.length_set]; exact hlen) i hi]
    have hset : (hs.set (f w).val (hs.getD (f w).val 0 + 1)).getD i 0
        = hs.getD i 0 + if ((f w).val == i) then 1 else 0 := by
      by_cases hwi : (f w).val = i
      · subst hwi
        rw [List.getD_eq_getElem?_getD, List.getElem?_set, if_pos rfl,
          if_pos (by rw [hlen]; exact (f w).isLt)]
        simp
      · rw [List.getD_eq_getElem?_getD, List.getElem?_set, if_neg hwi,
          ← List.getD_eq_getElem?_getD]
        simp [hwi]
    rw [hset, List.countP_cons]
    by_cases hwi : (f w).val = i
    · simp [hwi]
      omega
    · simp [hwi]

/-- Each word falls into exactly one bucket, so the per-bucket counts of a
word list sum to its length. -/
lemma sum_countP_buckets (f : String → Fin 65536) :
    ∀ (ws : List String),
      (∑ i ∈ Finset.range 65536, ws.countP (fun w => (f w).val == i)) = ws.length
  | [] => by simp
  | w :: ws => by
    simp only [List.countP_cons]
    rw [Finset.sum_add_distrib, sum_countP_buckets f ws]
    have hone : (∑ i ∈ Finset.range 65536,
        if ((f w).val == i) then (1 : ℕ) else 0) = 1 := by
      simp only [beq_iff_eq]
      rw [Finset.sum_ite_eq]
      exact if_pos (Finset.mem_range.mpr (f w).isLt)
    rw [hone, List.length_cons]

end MainCpp

/-- C1: for every word list and every bucket-count array (of the full
length 65536), the chi-square statistic computed by `computeChiSquare`
equals the sum over all 65536 buckets of
(observed − expected)² / expected, with expected the exact (unrounded)
quotient `totalWords / 65536`. -/
theorem computeChiSquare_eq_sum_over_buckets (words : List String)
    (hashes : List ℕ) (hlen : hashes.length = 65536) :
    MainCpp.computeChiSquare words hashes =
      ∑ i ∈ Finset.range 65536,
        ((hashes.getD i 0 : ℚ) - MainCpp.expectedCount words) ^ 2 /
          MainCpp.expectedCount words := by
  rw [MainCpp.computeChiSquare, MainCpp.computeChiSquare_foldl, zero_add,
    MainCpp.sum_map_getD _ 0 hashes, hlen]

/-- Witness for C1 at the empty word list and the all-zero bucket array. -/
theorem computeChiSquare_eq_sum_over_buckets_witness :
    (List.replicate 65536 (0 : ℕ)).length = 65536 ∧
    MainCpp.computeChiSquare [] (List.replicate 65536 (0 : ℕ)) =
      ∑ i ∈ Finset.range 65536,
        (((List.replicate 65536 (0 : ℕ)).getD i 0 : ℚ) -
            MainCpp.expectedCount []) ^ 2 / MainCpp.expectedCount [] :=
  ⟨List.length_replicate 65536 0,
    computeChiSquare_eq_sum_over_buckets [] (List.replicate 65536 0)
      (List.length_replicate 65536 0)⟩

/-- C2: the bucket array produced by the accumulation loop of
`testHashFunction` has length 65536, its counts sum to the length of the
word list, and entry `i` counts exactly the words whose hash is `i`. -/
theorem accumulate_conservation (words : List String)
    (f : String → Fin 65536) :
    (MainCpp.accumulate words f).length = 65536 ∧
    (MainCpp.accumulate words f).sum = words.length ∧
    ∀ i : Fin 65536, (MainCpp.accumulate words f).getD i.val 0 =
      words.countP (fun w => f w == i) := by
  have hlen0 : MainCpp.bucketInit.length = 65536 := by
    rw [MainCpp.bucketInit, List.length_replicate]
  have hlen : (MainCpp.accumulate words f).length = 65536 := by
    rw [MainCpp.accumulate, MainCpp.accumulate_loop_length]; exact hlen0
  have hpt : ∀ i : ℕ, i < 65536 → (MainCpp.accumulate words f).getD i 0 =
      words.countP (fun w => (f w).val == i) := by
    intro i hi
    rw [MainCpp.accumulate, MainCpp.accumulate_loop_getD f words _ hlen0 i hi,
      MainCpp.getD_bucketInit, zero_add]
  refine ⟨hlen, ?_, ?_⟩
  · rw [MainCpp.sum_eq_sum_getD, hlen]
    rw [Finset.sum_congr rfl (fun i hi => hpt i (Finset.mem_range.mp hi))]
    exact MainCpp.sum_countP_buckets f words
  · intro i
    rw [hpt i.val i.isLt]
    congr 1
    funext w
    by_cases h : f w = i
    · simp [h]
    · have hv : (f w).val ≠ i.val := fun hc => h (Fin.ext hc)
      simp [h, hv]

/-- C10: every bucket increment `hashes[h]++` of the accumulation loop is
within bounds: the bounds-checked accumulator never aborts and agrees
with the unchecked one, because a `uint16_t` hash is always `< 65536`,
the bucket array's length. -/
theorem bucket_increment_in_bounds (words : List String)
    (f : String → Fin 65536) :
    MainCpp.accumulateChecked words f = some (MainCpp.accumulate words f) := by
  rw [MainCpp.accumulateChecked, MainCpp.accumulate]
  have loop : ∀ (ws : List String) (hs : List ℕ), hs.length = 65536 →
      (ws.foldlM (fun hashes w =>
        if (f w).val < hashes.length then
          some (hashes.set (f w).val (hashes.getD (f w).val 0 + 1))
        else none) hs)
      = some (ws.foldl (fun hashes w =>
          hashes.set (f w).val (hashes.getD (f w).val 0 + 1)) hs) := by
    intro ws
    induction ws with
    | nil => intro hs _; rfl
    | cons w ws ih =>
      intro hs hlen
      rw [List.foldlM_cons, if_pos (by rw [hlen]; exact (f w).isLt)]
      show (ws.foldlM _ _) = _
      rw [ih _ (by rw [List.length_set]; exact hlen), List.foldl_cons]
  exact loop words MainCpp.bucketInit
    (by rw [MainCpp.bucketInit, List.length_replicate])

/-- C5: for a non-empty word list, the chi-square statistic is `0` when
every bucket count equals the expected count exactly, and strictly
positive whenever at least one bucket count differs from it. -/
theorem computeChiSquare_zero_iff_uniform (words : List String)
    (hashes : List ℕ) (hwords : words ≠ []) (_hlen : hashes.length = 65536) :
    ((∀ c ∈ hashes, (c : ℚ) = MainCpp.expectedCount words) →
      MainCpp.computeChiSquare words hashes = 0) ∧
    (∀ c ∈ hashes, (c : ℚ) ≠ MainCpp.expectedCount words →
      0 < MainCpp.computeChiSquare words hashes) := by
  have hl : 0 < words.length := List.length_pos.mpr hwords
  have hexp : 0 < MainCpp.expectedCount words := by
    rw [MainCpp.expectedCount]
    apply div_pos _ (by norm_num)
    exact_mod_cast hl
  have hfold : MainCpp.computeChiSquare words hashes
      = (hashes.map (fun (count : ℕ) =>
          ((count : ℚ) - MainCpp.expectedCount words) ^ 2 /
            MainCpp.expectedCount words)).sum := by
    rw [MainCpp.computeChiSquare, MainCpp.computeChiSquare_foldl, zero_add]
  constructor
  · intro hall
    rw [hfold]
    apply List.sum_eq_zero
    intro x hx
    obtain ⟨c, hc, rfl⟩ := List.mem_map.mp hx
    rw [hall c hc]
    simp
  · intro c hc hne
    rw [hfold]
    have hterm : 0 < ((c : ℚ) - MainCpp.expectedCount words) ^ 2 /
        MainCpp.expectedCount words :=
      div_pos (pow_two_pos_of_ne_zero (sub_ne_zero.mpr hne)) hexp
    refine lt_of_lt_of_le hterm ?_
    apply List.single_le_sum _ _ (List.mem_map_of_mem _ hc)
    intro x hx
    obtain ⟨d, hd, rfl⟩ := List.mem_map.mp hx
    exact div_nonneg (sq_nonneg _) hexp.le

/-- Witness for C5 with the one-word list `["a"]` and the all-zero bucket
array (whose counts all differ from the expected count 1/65536). -/
theorem computeChiSquare_zero_iff_uniform_witness :
    (["a"] : List String) ≠ [] ∧
    (List.replicate 65536 (0 : ℕ)).length = 65536 ∧
    (((∀ c ∈ List.replicate 65536 (0 : ℕ),
        (c : ℚ) = MainCpp.expectedCount ["a"]) →
      MainCpp.computeChiSquare ["a"] (List.replicate 65536 0) = 0) ∧
    (∀ c ∈ List.replicate 65536 (0 : ℕ),
        (c : ℚ) ≠ MainCpp.expectedCount ["a"] →
      0 < MainCpp.computeChiSquare ["a"] (List.replicate 65536 0))) :=
  ⟨by simp, List.length_replicate 65536 0,
    computeChiSquare_zero_iff_uniform ["a"] (List.replicate 65536 0)
      (by simp) (List.length_replicate 65536 0)⟩

/-- The spec-modelled chi-squared distribution is a probability measure:
its shape 65535/2 and rate 1/2 are positive. -/
instance : IsProbabilityMeasure chiSquaredDist65535 :=
  isProbabilityMeasureGamma (by norm_num) (by norm_num)

/-- C3: `computePValue` is the CDF of the chi-squared distribution with
65535 degrees of freedom: it returns the proportion of the
distribution's mass at or below the statistic, and this value lies in
`[0, 1]`. -/
theorem computePValue_cdf_unit_interval (x : ℝ) :
    MainCpp.computePValue x = (chiSquaredDist65535 (Iic x)).toReal ∧
    0 ≤ MainCpp.computePValue x ∧ MainCpp.computePValue x ≤ 1 :=
  ⟨cdf_eq_toReal chiSquaredDist65535 x,
   cdf_nonneg chiSquaredDist65535 x, cdf_le_one chiSquaredDist65535 x⟩

/-- C4 (amended): the p-value returned by `computePValue` is monotonically
non-DEcreasing in the chi-square statistic, being a lower-tail CDF. -/
theorem computePValue_monotone_nondecreasing (x1 x2 : ℝ) (h : x1 ≤ x2) :
    MainCpp.computePValue x1 ≤ MainCpp.computePValue x2 :=
  monotone_cdf chiSquaredDist65535 h

/-- Witness for the amended C4 at the statistics `0 ≤ 1`. -/
theorem computePValue_monotone_nondecreasing_witness :
    (0 : ℝ) ≤ 1 ∧ MainCpp.computePValue 0 ≤ MainCpp.computePValue 1 :=
  ⟨by norm_num, computePValue_monotone_nondecreasing 0 1 (by norm_num)⟩

/-- The chi-squared distribution assigns no mass at or below `0`. -/
lemma chiSquaredDist_Iic_zero : chiSquaredDist65535 (Iic (0 : ℝ)) = 0 := by
  rw [chiSquaredDist65535, gammaMeasure, withDensity_apply _ measurableSet_Iic,
    setLIntegral_congr (Iio_ae_eq_Iic (a := (0 : ℝ))).symm]
  exact lintegral_gammaPDF_of_nonpos le_rfl

/-- The chi-squared distribution has positive mass at or below `65535`. -/
lemma chiSquaredDist_Iic_pos : 0 < chiSquaredDist65535 (Iic (65535 : ℝ)) := by
  refine lt_of_lt_of_le ?_ (measure_mono (Ioc_subset_Iic_self (a := (0 : ℝ))))
  have hm : Measurable (gammaPDF (65535 / 2) (1 / 2)) :=
    (measurable_gammaPDFReal _ _).ennreal_ofReal
  rw [chiSquaredDist65535, gammaMeasure, withDensity_apply _ measurableSet_Ioc,
    setLintegral_pos_iff hm]
  have hsupp : Ioc (0 : ℝ) 65535 ⊆
      Function.support (gammaPDF (65535 / 2) (1 / 2)) := by
    intro x hx
    rw [Function.mem_support, gammaPDF]
    have hpos := gammaPDFReal_pos (x := x) (a := 65535 / 2) (r := 1 / 2)
      (by norm_num) (by norm_num) hx.1
    rw [Ne, ENNReal.ofReal_eq_zero]
    linarith
  rw [Set.inter_eq_right.mpr hsupp, Real.volume_Ioc]
  norm_num

/-- C4 counterexample: the claim "`x1 ≤ x2` implies
`computePValue x1 ≥ computePValue x2`" fails at `x1 = 0`, `x2 = 65535`:
the p-value strictly increases there. -/
theorem computePValue_not_antitone_counterexample :
    (0 : ℝ) ≤ 65535 ∧
    ¬ (MainCpp.computePValue 0 ≥ MainCpp.computePValue 65535) := by
  refine ⟨by norm_num, ?_⟩
  rw [ge_iff_le, not_le]
  have h0 : MainCpp.computePValue 0 = 0 := by
    rw [MainCpp.computePValue, cdf_eq_toReal, chiSquaredDist_Iic_zero,
      ENNReal.zero_toReal]
  have h1 : 0 < MainCpp.computePValue 65535 := by
    rw [MainCpp.computePValue, cdf_eq_toReal]
    exact ENNReal.toReal_pos (ne_of_gt chiSquaredDist_Iic_pos)
      (measure_ne_top _ _)
  rw [h0]
  exact h1

/-- C8: the histogram-enabled variant (`main.cpp`) and the
histogram-suppressed variant (`main_no_histogram.cpp`) accumulate buckets
identically and compute identical chi-square statistics and p-values on
every word list, bucket array and hash function; they differ only in the
histogram visualization step. -/
theorem variants_identical_statistics (words : List String)
    (hashes : List ℕ) (hashFunc : String → Fin 65536) (x : ℝ) :
    MainCpp.accumulate words hashFunc = NoHistogramCpp.accumulate words hashFunc ∧
    MainCpp.computeChiSquare words hashes =
      NoHistogramCpp.computeChiSquare words hashes ∧
    MainCpp.computePValue x = NoHistogramCpp.computePValue x ∧
    (MainCpp.testHashFunction ⟨words⟩ hashFunc).1.chiSquare =
      (NoHistogramCpp.testHashFunction words hashFunc).chiSquare ∧
    (MainCpp.testHashFunction ⟨words⟩ hashFunc).1.pValue =
      (NoHistogramCpp.testHashFunction words hashFunc).pValue :=
  ⟨rfl, rfl, rfl, rfl, rfl⟩

/-- C9: every trial's report is a pure function of the initial word list
and the trial's own hash function — running a sequence of registered
trials yields exactly the per-function reports, independent of order or
repetition (so the same function registered twice yields identical
reports) — and a trial leaves the tester state (the word list)
unchanged. -/
theorem trials_independent (words : List String)
    (fs : List (String → Fin 65536)) (hashFunc : String → Fin 65536) :
    MainCpp.runTrials ⟨words⟩ fs
      = fs.map (fun g => (MainCpp.testHashFunction ⟨words⟩ g).1) ∧
    (MainCpp.testHashFunction ⟨words⟩ hashFunc).2 = ⟨words⟩ := by
  constructor
  · induction fs with
    | nil => rfl
    | cons g gs ih =>
      rw [MainCpp.runTrials, List.map_cons]
      show (MainCpp.testHashFunction ⟨words⟩ g).1 ::
        MainCpp.runTrials (MainCpp.testHashFunction ⟨words⟩ g).2 gs = _
      rw [show (MainCpp.testHashFunction ⟨words⟩ g).2
          = (⟨words⟩ : MainCpp.TesterState) from rfl, ih]
  · rfl

namespace MainCpp

/-- Folding `max` over a block of zero counts leaves the accumulator. -/
lemma foldl_max_replicate_zero : ∀ (k a : ℕ), (List.replicate k 0).foldl max a = a
  | 0, _ => rfl
  | k + 1, a => by
    rw [List.replicate_succ, List.foldl_cons, Nat.max_zero]
    exact foldl_max_replicate_zero k a

/-- Folding `min` from `0` over a block of zero counts gives `0`. -/
lemma foldl_min_replicate_zero : ∀ (k : ℕ), (List.replicate k 0).foldl min 0 = 0
  | 0 => rfl
  | k + 1 => by
    rw [List.replicate_succ, List.foldl_cons, min_self]
    exact foldl_min_replicate_zero k

/-- On the all-zero (flat) bucket array, `maxCount` is `0`. -/
lemma maxCount_replicate_zero : maxCount (List.replicate 65536 0) = 0 := by
  rw [maxCount, show (65536 : ℕ) = 65535 + 1 from rfl, List.replicate_succ]
  rw [show ((0 : ℕ) :: List.replicate 65535 0).max?
      = some ((List.replicate 65535 (0 : ℕ)).foldl max 0) from rfl,
    Option.getD_some, foldl_max_replicate_zero]

/-- On the all-zero (flat) bucket array, `minCount` is `0`. -/
lemma minCount_replicate_zero : minCount (List.replicate 65536 0) = 0 := by
  rw [minCount, show (65536 : ℕ) = 65535 + 1 from rfl, List.replicate_succ]
  rw [show ((0 : ℕ) :: List.replicate 65535 0).min?
      = some ((List.replicate 65535 (0 : ℕ)).foldl min 0) from rfl,
    Option.getD_some, foldl_min_replicate_zero]

end MainCpp

/-- C7: neither degenerate zero-division case is guarded.  On the empty
word list the chi-square divisor `expected` is exactly `0`, and on a flat
bucket array (for example the all-zero array) the histogram
normalisation divisor `maxCount − minCount` is exactly `0`; both
`computeChiSquare` and `normalizedSegment` divide by these quantities
unconditionally (there is no branch in either definition). -/
theorem degenerate_divisors_unguarded :
    MainCpp.expectedCount [] = 0 ∧
    MainCpp.maxCount (List.replicate 65536 0) =
      MainCpp.minCount (List.replicate 65536 0) ∧
    ((MainCpp.maxCount (List.replicate 65536 0) : ℤ) -
      (MainCpp.minCount (List.replicate 65536 0) : ℤ)) = 0 := by
  refine ⟨?_, ?_, ?_⟩
  · rw [MainCpp.expectedCount]
    norm_num
  · rw [MainCpp.maxCount_replicate_zero, MainCpp.minCount_replicate_zero]
  · rw [MainCpp.maxCount_replicate_zero, MainCpp.minCount_replicate_zero]
    norm_num

namespace MainCpp

/-- One histogram segment's worth of buckets: a single count of `9`
followed by 4095 zero counts. -/
def histBlock : List ℕ := 9 :: List.replicate 4095 0

/-- `n` copies of `histBlock` in a row. -/
def repBlock : ℕ → List ℕ
  | 0 => []
  | n + 1 => histBlock ++ repBlock n

/-- A concrete bucket array of length 65536 in which every one of the 16
histogram segments contains both the global maximum count `9` and the
global minimum count `0`. -/
def hashesCE : List ℕ := repBlock 16

lemma histBlock_length : histBlock.length = 4096 := by
  rw [histBlock, List.length_cons, List.length_replicate]

lemma repBlock_length : ∀ n, (repBlock n).length = n * 4096
  | 0 => rfl
  | n + 1 => by
    show (histBlock ++ repBlock n).length = (n + 1) * 4096
    rw [List.length_append, histBlock_length, repBlock_length n]
    ring

lemma hashesCE_length : hashesCE.length = 65536 := by
  show (repBlock 16).length = 65536
  rw [repBlock_length]

lemma foldl_max_histBlock (a : ℕ) (h : 9 ≤ a) : histBlock.foldl max a = a := by
  show ((9 : ℕ) :: List.replicate 4095 0).foldl max a = a
  rw [List.foldl_cons, max_eq_left h, foldl_max_replicate_zero]

lemma foldl_max_repBlock : ∀ (n a : ℕ), 9 ≤ a → (repBlock n).foldl max a = a
  | 0, _, _ => rfl
  | n + 1, a, h => by
    show (histBlock ++ repBlock n).foldl max a = a
    rw [List.foldl_append, foldl_max_histBlock a h]
    exact foldl_max_repBlock n a h

lemma foldl_min_histBlock (a : ℕ) : histBlock.foldl min a = 0 := by
  show ((9 : ℕ) :: List.replicate 4095 0).foldl min a = 0
  rw [List.foldl_cons, show (4095 : ℕ) = 4094 + 1 from rfl,
    List.replicate_succ, List.foldl_cons, Nat.min_zero,
    foldl_min_replicate_zero]

lemma foldl_min_repBlock : ∀ (n a : ℕ), (repBlock (n + 1)).foldl min a = 0
  | 0, a => by
    show (histBlock ++ repBlock 0).foldl min a = 0
    rw [List.foldl_append, show repBlock 0 = ([] : List ℕ) from rfl,
      List.foldl_nil]
    exact foldl_min_histBlock a
  | n + 1, a => by
    show (histBlock ++ repBlock (n + 1)).foldl min a = 0
    rw [List.foldl_append]
    exact foldl_min_repBlock n _

lemma hashesCE_cons : hashesCE = 9 :: (List.replicate 4095 0 ++ repBlock 15) := by
  show histBlock ++ repBlock 15 = 9 :: (List.replicate 4095 0 ++ repBlock 15)
  rw [histBlock, List.cons_append]

lemma maxCount_hashesCE : maxCount hashesCE = 9 := by
  rw [maxCount, hashesCE_cons,
    show ((9 : ℕ) :: (List.replicate 4095 0 ++ repBlock 15)).max?
      = some ((List.replicate 4095 (0 : ℕ) ++ repBlock 15).foldl max 9) from rfl,
    Option.getD_some, List.foldl_append, foldl_max_replicate_zero]
  exact foldl_max_repBlock 15 9 le_rfl

lemma minCount_hashesCE : minCount hashesCE = 0 := by
  rw [minCount, hashesCE_cons,
    show ((9 : ℕ) :: (List.replicate 4095 0 ++ repBlock 15)).min?
      = some ((List.replicate 4095 (0 : ℕ) ++ repBlock 15).foldl min 9) from rfl,
    Option.getD_some, List.foldl_append,
    show (4095 : ℕ) = 4094 + 1 from rfl, List.replicate_succ,
    List.foldl_cons, Nat.min_zero, foldl_min_replicate_zero]
  exact foldl_min_repBlock 14 0

lemma repBlock_drop : ∀ (i n : ℕ), (repBlock (n + i)).drop (i * 4096) = repBlock n
  | 0, n => by simp
  | i + 1, n => by
    show (histBlock ++ repBlock (n + i)).drop ((i + 1) * 4096) = repBlock n
    rw [show (i + 1) * 4096 = histBlock.length + i * 4096 by
        rw [histBlock_length]; ring,
      ← List.drop_drop, List.drop_left]
    exact repBlock_drop i n

lemma repBlock_take (n : ℕ) : (repBlock (n + 1)).take 4096 = histBlock := by
  show (histBlock ++ repBlock n).take 4096 = histBlock
  rw [← histBlock_length, List.take_left]

lemma segmentSlice_hashesCE (i : ℕ) (hi : i < 16) :
    segmentSlice hashesCE i = histBlock := by
  obtain ⟨k, hk⟩ : ∃ k, 16 = (k + 1) + i := ⟨15 - i, by omega⟩
  rw [segmentSlice, hashesCE_length,
    show min ((i + 1) * 4096) 65536 - i * 4096 = 4096 by omega]
  have hdrop : hashesCE.drop (i * 4096) = repBlock (k + 1) := by
    show (repBlock 16).drop (i * 4096) = repBlock (k + 1)
    rw [hk]
    exact repBlock_drop i (k + 1)
  rw [hdrop]
  exact repBlock_take k

lemma segmentMaxCount_hashesCE (i : ℕ) (hi : i < 16) :
    segmentMaxCount hashesCE i = 9 := by
  rw [segmentMaxCount, segmentSlice_hashesCE i hi,
    show histBlock.max?
      = some ((List.replicate 4095 (0 : ℕ)).foldl max 9) from rfl,
    Option.getD_some, foldl_max_replicate_zero]

lemma normalizedSegment_hashesCE (i : ℕ) (hi : i < 16) :
    normalizedSegment hashesCE i = 9 := by
  have h9 : normalizedSegment hashesCE i = round ((9 : ℚ)) := by
    rw [normalizedSegment, segmentMaxCount_hashesCE i hi, maxCount_hashesCE,
      minCount_hashesCE, HISTOGRAM_HEIGHT]
    congr 1
    push_cast
    norm_num
  rw [h9, show (9 : ℚ) = ((9 : ℤ) : ℚ) by norm_num, round_intCast]

end MainCpp

/-- C6 counterexample: on the concrete length-65536 bucket array
`hashesCE` (whose 16 segments each hold one count of `9` and 4095 counts
of `0`), the range is non-degenerate, segment 0 contains a bucket with
the global minimum count, yet every segment's normalised height is
`9 = HISTOGRAM_HEIGHT − 1`, not `0` — so no segment containing the
global minimum has height 0. -/
theorem printHistogram_min_segment_counterexample :
    MainCpp.hashesCE.length = 65536 ∧
    MainCpp.minCount MainCpp.hashesCE < MainCpp.maxCount MainCpp.hashesCE ∧
    MainCpp.minCount MainCpp.hashesCE ∈ MainCpp.segmentSlice MainCpp.hashesCE 0 ∧
    (∀ i, i < 16 → MainCpp.normalizedSegment MainCpp.hashesCE i = 9) := by
  refine ⟨MainCpp.hashesCE_length, ?_, ?_, ?_⟩
  · rw [MainCpp.minCount_hashesCE, MainCpp.maxCount_hashesCE]
    norm_num
  · rw [MainCpp.minCount_hashesCE,
      MainCpp.segmentSlice_hashesCE 0 (by norm_num), MainCpp.histBlock]
    exact List.mem_cons_of_mem _ (List.mem_replicate.mpr ⟨by norm_num, rfl⟩)
  · intro i hi
    exact MainCpp.normalizedSegment_hashesCE i hi

namespace MainCpp

/-- For a nonempty list of counts, `max?.getD 0` (the model of
`*max_element`) is a member of the list and an upper bound for it. -/
lemma max?_getD_spec (l : List ℕ) (h : l ≠ []) :
    l.max?.getD 0 ∈ l ∧ ∀ x ∈ l, x ≤ l.max?.getD 0 := by
  cases hm : l.max? with
  | none => exact absurd (List.max?_eq_none_iff.mp hm) h
  | some m =>
    obtain ⟨hmem, hle⟩ := (List.max?_eq_some_iff (fun a => le_refl a)
      (fun a b => max_choice a b) (fun a b c => max_le_iff)).mp hm
    simp only [Option.getD_some]
    exact ⟨hmem, hle⟩

/-- For a nonempty list of counts, `min?.getD 0` (the model of
`*min_element`) is a member of the list and a lower bound for it. -/
lemma min?_getD_spec (l : List ℕ) (h : l ≠ []) :
    l.min?.getD 0 ∈ l ∧ ∀ x ∈ l, l.min?.getD 0 ≤ x := by
  cases hm : l.min? with
  | none => exact absurd (List.min?_eq_none_iff.mp hm) h
  | some m =>
    obtain ⟨hmem, hle⟩ := (List.min?_eq_some_iff (fun a => le_refl a)
      (fun a b => min_choice a b) (fun a b c => le_min_iff)).mp hm
    simp only [Option.getD_some]
    exact ⟨hmem, hle⟩

/-- On a full-length bucket array, every one of the 16 segment slices has
exactly 4096 buckets. -/
lemma segmentSlice_length (hashes : List ℕ) (hlen : hashes.length = 65536)
    (i : ℕ) (hi : i < 16) : (segmentSlice hashes i).length = 4096 := by
  rw [segmentSlice, List.length_take, List.length_drop, hlen]
  omega

/-- Every bucket of a segment slice is a bucket of the whole array. -/
lemma segmentSlice_subset (hashes : List ℕ) (i : ℕ) :
    ∀ x ∈ segmentSlice hashes i, x ∈ hashes := fun _ hx =>
  List.Sublist.mem hx ((List.take_sublist _ _).trans (List.drop_sublist _ _))

/-- The normalised height `round(A/B * 9)` is between `0` and `9` whenever
`0 ≤ A ≤ B` and `0 < B`. -/
lemma round_height_bounds (A B : ℤ) (hA0 : 0 ≤ A) (hAB : A ≤ B)
    (hB : 0 < B) :
    0 ≤ round ((A : ℚ) / (B : ℚ) * ((10 : ℚ) - 1)) ∧
    round ((A : ℚ) / (B : ℚ) * ((10 : ℚ) - 1)) ≤ 9 := by
  have hB' : (0 : ℚ) < (B : ℚ) := by exact_mod_cast hB
  have hq0 : (0 : ℚ) ≤ (A : ℚ) / (B : ℚ) :=
    div_nonneg (by exact_mod_cast hA0) hB'.le
  have hq1 : (A : ℚ) / (B : ℚ) ≤ 1 :=
    (div_le_one hB').mpr (by exact_mod_cast hAB)
  constructor
  · rw [round_eq]
    apply Int.floor_nonneg.mpr
    nlinarith
  · rw [round_eq]
    have hlt : ⌊(A : ℚ) / (B : ℚ) * ((10 : ℚ) - 1) + 1 / 2⌋ < 10 := by
      apply Int.floor_lt.mpr
      push_cast
      nlinarith
    omega

/-- The normalised height of a segment whose maximum attains the global
maximum is exactly `9`. -/
lemma round_height_full (B : ℤ) (hB : 0 < B) :
    round ((B : ℚ) / (B : ℚ) * ((10 : ℚ) - 1)) = 9 := by
  have hB' : ((B : ℚ)) ≠ 0 := by
    exact_mod_cast hB.ne'
  rw [div_self hB', one_mul, show ((10 : ℚ) - 1) = ((9 : ℤ) : ℚ) by norm_num,
    round_intCast]

end MainCpp

/-- C6 (amended): for a full-length bucket array whose global maximum
strictly exceeds its global minimum, every one of the 16 normalised
segment heights lies in `[0, HISTOGRAM_HEIGHT − 1]`; every segment
containing a bucket with the global maximum count has height
`HISTOGRAM_HEIGHT − 1`; and every segment all of whose buckets equal the
global minimum (i.e. whose segment maximum is the global minimum) has
height `0`. -/
theorem normalizedSegment_bounds (hashes : List ℕ)
    (hlen : hashes.length = 65536)
    (hrange : MainCpp.minCount hashes < MainCpp.maxCount hashes) :
    (∀ i, i < 16 → 0 ≤ MainCpp.normalizedSegment hashes i ∧
      MainCpp.normalizedSegment hashes i ≤ (MainCpp.HISTOGRAM_HEIGHT : ℤ) - 1) ∧
    (∀ i, i < 16 → MainCpp.maxCount hashes ∈ MainCpp.segmentSlice hashes i →
      MainCpp.normalizedSegment hashes i = (MainCpp.HISTOGRAM_HEIGHT : ℤ) - 1) ∧
    (∀ i, i < 16 →
      MainCpp.segmentMaxCount hashes i = MainCpp.minCount hashes →
      MainCpp.normalizedSegment hashes i = 0) := by
  have hne : hashes ≠ [] := by
    intro h
    rw [h] at hlen
    simp at hlen
  have hminle : ∀ x ∈ hashes, MainCpp.minCount hashes ≤ x :=
    (MainCpp.min?_getD_spec hashes hne).2
  have hmaxle : ∀ x ∈ hashes, x ≤ MainCpp.maxCount hashes :=
    (MainCpp.max?_getD_spec hashes hne).2
  have hH : ((MainCpp.HISTOGRAM_HEIGHT : ℚ) - 1) = ((10 : ℚ) - 1) := by
    rw [MainCpp.HISTOGRAM_HEIGHT]
    norm_num
  have hHZ : ((MainCpp.HISTOGRAM_HEIGHT : ℤ) - 1) = 9 := by
    rw [MainCpp.HISTOGRAM_HEIGHT]
    norm_num
  have hslice : ∀ i, i < 16 → MainCpp.segmentSlice hashes i ≠ [] := by
    intro i hi h
    have := MainCpp.segmentSlice_length hashes hlen i hi
    rw [h] at this
    simp at this
  have hsm : ∀ i, i < 16 →
      MainCpp.minCount hashes ≤ MainCpp.segmentMaxCount hashes i ∧
      MainCpp.segmentMaxCount hashes i ≤ MainCpp.maxCount hashes ∧
      ∀ x ∈ MainCpp.segmentSlice hashes i, x ≤ MainCpp.segmentMaxCount hashes i := by
    intro i hi
    obtain ⟨hmem, hub⟩ := MainCpp.max?_getD_spec _ (hslice i hi)
    have hmem' : MainCpp.segmentMaxCount hashes i ∈ hashes :=
      MainCpp.segmentSlice_subset hashes i _ hmem
    exact ⟨hminle _ hmem', hmaxle _ hmem', hub⟩
  have hB : 0 < ((MainCpp.maxCount hashes : ℤ) - (MainCpp.minCount hashes : ℤ)) := by
    omega
  refine ⟨?_, ?_, ?_⟩
  · intro i hi
    obtain ⟨h1, h2, _⟩ := hsm i hi
    have hA0 : 0 ≤ ((MainCpp.segmentMaxCount hashes i : ℤ) -
        (MainCpp.minCount hashes : ℤ)) := by omega
    have hAB : ((MainCpp.segmentMaxCount hashes i : ℤ) -
        (MainCpp.minCount hashes : ℤ)) ≤
        ((MainCpp.maxCount hashes : ℤ) - (MainCpp.minCount hashes : ℤ)) := by
      omega
    rw [MainCpp.normalizedSegment, hH, hHZ]
    exact MainCpp.round_height_bounds _ _ hA0 hAB hB
  · intro i hi hmax
    obtain ⟨_, h2, hub⟩ := hsm i hi
    have heq : MainCpp.segmentMaxCount hashes i = MainCpp.maxCount hashes :=
      le_antisymm h2 (hub _ hmax)
    rw [MainCpp.normalizedSegment, hH, hHZ, heq]
    exact MainCpp.round_height_full _ hB
  · intro i hi hflat
    rw [MainCpp.normalizedSegment, hflat]
    simp

/-- Witness for the amended C6 at the concrete bucket array `hashesCE`
(global minimum `0`, global maximum `9`). -/
theorem normalizedSegment_bounds_witness :
    MainCpp.hashesCE.length = 65536 ∧
    MainCpp.minCount MainCpp.hashesCE < MainCpp.maxCount MainCpp.hashesCE ∧
    ((∀ i, i < 16 → 0 ≤ MainCpp.normalizedSegment MainCpp.hashesCE i ∧
      MainCpp.normalizedSegment MainCpp.hashesCE i ≤
        (MainCpp.HISTOGRAM_HEIGHT : ℤ) - 1) ∧
    (∀ i, i < 16 → MainCpp.maxCount MainCpp.hashesCE ∈
        MainCpp.segmentSlice MainCpp.hashesCE i →
      MainCpp.normalizedSegment MainCpp.hashesCE i =
        (MainCpp.HISTOGRAM_HEIGHT : ℤ) - 1) ∧
    (∀ i, i < 16 →
      MainCpp.segmentMaxCount MainCpp.hashesCE i =
        MainCpp.minCount MainCpp.hashesCE →
      MainCpp.normalizedSegment MainCpp.hashesCE i = 0)) :=
  ⟨MainCpp.hashesCE_length,
   by rw [MainCpp.minCount_hashesCE, MainCpp.maxCount_hashesCE]; norm_num,
   normalizedSegment_bounds MainCpp.hashesCE MainCpp.hashesCE_length
     (by rw [MainCpp.minCount_hashesCE, MainCpp.maxCount_hashesCE]; norm_num)⟩
